import Mathlib

/-!
A formal model of the retrieval-ranking pipeline of an AI knowledge agent:
semantic chunking, query optimization, BM25 reranking, context assembly and
hybrid merge.  Python strings are modelled as lists of characters; Python
floats appear only where a claim depends on them and are then modelled
exactly (rational values plus an explicit NaN).  Python dicts preserve
insertion order and are modelled as insertion-ordered association lists;
the Python sort is stable and is modelled by a stable insertion sort, which
computes the same list for the total preorders used here.
-/

/-- Python str modelled as a list of characters (code points). -/
abbrev PyStr := List Char

/-- Python whitespace test, covering the ASCII whitespace characters:
space, tab, newline, carriage return, vertical tab, form feed. -/
def pyIsSpace (c : Char) : Bool :=
  c = ' ' || c = '\t' || c = '\n' || c = '\r' || c.toNat = 11 || c.toNat = 12

/-- Python str.rstrip with no argument: drop trailing whitespace. -/
def pyRstrip : PyStr → PyStr
  | [] => []
  | c :: cs =>
    let r := pyRstrip cs
    if r = [] then (if pyIsSpace c then [] else [c]) else c :: r

/-- Python str.strip with no argument: drop leading and trailing whitespace. -/
def pyStrip (s : PyStr) : PyStr := pyRstrip (s.dropWhile pyIsSpace)

/-- Worker for pySplit; the first argument holds the current word reversed. -/
def pySplitGo : PyStr → PyStr → List PyStr
  | acc, [] => if acc = [] then [] else [acc.reverse]
  | acc, c :: cs =>
    if pyIsSpace c then
      (if acc = [] then pySplitGo [] cs else acc.reverse :: pySplitGo [] cs)
    else pySplitGo (c :: acc) cs

/-- Python str.split with no argument: split on maximal whitespace runs,
returning only the nonempty words. -/
def pySplit (s : PyStr) : List PyStr := pySplitGo [] s

/-- Python str.lower, restricted to the ASCII range used by the pipeline. -/
def pyLower (s : PyStr) : PyStr := s.map Char.toLower

/-- Python sep.join(parts). -/
def pyJoin (sep : PyStr) : List PyStr → PyStr
  | [] => []
  | [x] => x
  | x :: y :: xs => x ++ sep ++ pyJoin sep (y :: xs)

/-!
Hybrid Merge.  app/services/search_pipeline.py imports merge_results (and
keyword_search) from app.services.qdrant_service, but qdrant_service.py as
present in the repository defines neither; the hybrid-merge implementation
is missing from the sources and only its caller exists.
-/

/-- A merged search hit: chunk identity plus the relevance score the entry
carries (vector-similarity score or keyword score). -/
structure MergeEntry where
  id : Nat
  score : ℚ
deriving DecidableEq

/-- Python dict assignment on an insertion-ordered association list:
replace the entry carrying the same key in place, else append. -/
def dictUpsert (m : List MergeEntry) (e : MergeEntry) : List MergeEntry :=
  if m.any (fun x => decide (x.id = e.id)) then
    m.map (fun x => if x.id = e.id then e else x)
  else m ++ [e]

/-- The mapping keyed by chunk identity: seeded from the vector-search list,
then overlaid with the keyword-search entries (the keyword hit wins on an
identity collision). -/
def hybridUnion (vector_results keyword_results : List MergeEntry) :
    List MergeEntry :=
  keyword_results.foldl dictUpsert (vector_results.foldl dictUpsert [])

/-- Modelled from the spec: the missing merge_results of
app.services.qdrant_service, following spec section 4.6 word for word:
build a mapping keyed by chunk identity seeded from the vector-search
list; overlay keyword-search entries, overwriting on identity collision
(the keyword hit wins on conflict); sort the union by the relevance score
of each entry, descending; truncate to top_k. -/
def merge_results (vector_results keyword_results : List MergeEntry)
    (top_k : Nat) : List MergeEntry :=
  ((hybridUnion vector_results keyword_results).insertionSort
    (fun a b => b.score ≤ a.score)).take top_k

/-- Distinct keys are preserved by a single dict insertion. -/
theorem dictUpsert_nodup {m : List MergeEntry}
    (h : m.Pairwise (fun a b => a.id ≠ b.id)) (e : MergeEntry) :
    (dictUpsert m e).Pairwise (fun a b => a.id ≠ b.id) := by
  unfold dictUpsert
  split
  · rename_i hany
    have hid : ∀ x : MergeEntry, (if x.id = e.id then e else x).id = x.id := by
      intro x
      split
      · rename_i hx; exact hx.symm
      · rfl
    rw [List.pairwise_map]
    refine h.imp_of_mem ?_
    intro a b _ _ hab
    rw [hid a, hid b]
    exact hab
  · rename_i hany
    rw [List.pairwise_append]
    refine ⟨h, List.pairwise_singleton _ _, ?_⟩
    intro a ha b hb
    have hb1 : b = e := by simpa using hb
    subst hb1
    intro hcon
    apply hany
    rw [List.any_eq_true]
    exact ⟨a, ha, by simpa using hcon⟩

/-- Distinct keys are preserved by folding dict insertions. -/
theorem foldl_dictUpsert_nodup (l : List MergeEntry) :
    ∀ m : List MergeEntry, m.Pairwise (fun a b => a.id ≠ b.id) →
      (l.foldl dictUpsert m).Pairwise (fun a b => a.id ≠ b.id) := by
  induction l with
  | nil => intro m h; exact h
  | cons e l ih =>
    intro m h
    exact ih _ (dictUpsert_nodup h e)

/-- C1: for every pair of ranked candidate lists produced for the same query
and every top_k, the hybrid merge returns one list with no two entries of
the same chunk identity, of length at most top_k, sorted descending by the
relevance score each entry carries.  (merge_results is spec-modelled: it is
absent from the repository sources.) -/
theorem merge_results_correct (vector_results keyword_results : List MergeEntry)
    (top_k : Nat) :
    (merge_results vector_results keyword_results top_k).length ≤ top_k ∧
    (merge_results vector_results keyword_results top_k).Pairwise
      (fun a b => a.id ≠ b.id) ∧
    (merge_results vector_results keyword_results top_k).Pairwise
      (fun a b => b.score ≤ a.score) := by
  haveI htotal : IsTotal MergeEntry (fun a b => b.score ≤ a.score) :=
    ⟨fun a b => le_total b.score a.score⟩
  haveI htrans : IsTrans MergeEntry (fun a b => b.score ≤ a.score) :=
    ⟨fun _ _ _ hab hbc => le_trans hbc hab⟩
  have hnodup : (hybridUnion vector_results keyword_results).Pairwise
      (fun a b => a.id ≠ b.id) :=
    foldl_dictUpsert_nodup keyword_results _
      (foldl_dictUpsert_nodup vector_results [] (List.Pairwise.nil))
  have hperm := List.perm_insertionSort
    (fun a b : MergeEntry => b.score ≤ a.score)
    (hybridUnion vector_results keyword_results)
  have hnodup2 : ((hybridUnion vector_results keyword_results).insertionSort
      (fun a b => b.score ≤ a.score)).Pairwise (fun a b => a.id ≠ b.id) :=
    (hperm.pairwise_iff (fun hxy => hxy.symm)).2 hnodup
  have hsorted : ((hybridUnion vector_results keyword_results).insertionSort
      (fun a b => b.score ≤ a.score)).Pairwise (fun a b => b.score ≤ a.score) :=
    List.sorted_insertionSort _ _
  refine ⟨?_, ?_, ?_⟩
  · simp [merge_results, List.length_take]
  · exact List.Pairwise.sublist (List.take_sublist _ _) hnodup2
  · exact List.Pairwise.sublist (List.take_sublist _ _) hsorted

/-!
SequenceMatcher of difflib (CPython), as called by ContextAssembler via
SequenceMatcher(None, a, b).ratio().  With isjunk = None the junk set is
empty, so the junk extension loops of find_longest_match never fire and are
omitted; the autojunk heuristic removes popular elements (occurring more
than len(b)/100 + 1 times when len(b) >= 200) from the index b2j, which
excludes them from the dynamic program but not from the plain extension
loops.
-/

/-- The autojunk test of SequenceMatcher for an element of b. -/
def isPopular (b : PyStr) (c : Char) : Bool :=
  decide (200 ≤ b.length) && decide (b.length / 100 + 1 < b.count c)

/-- One row of the j2len dynamic program of find_longest_match: the new
run length ending at row i and column j.  A popular character has no b2j
entry, so its row is empty; the Python lookup j2len.get(j-1, 0) at j = 0
reads the absent key -1 and yields 0. -/
def j2lenNext (b : PyStr) (blo bhi : Nat) (ai : Char) (prev : Nat → Nat) :
    Nat → Nat :=
  if isPopular b ai then fun _ => 0
  else fun j =>
    if blo ≤ j ∧ j < bhi ∧ b[j]? = some ai then
      (if j = 0 then 0 else prev (j - 1)) + 1
    else 0

/-- Folding one dynamic-program row into the running best match, visiting
the candidate columns of b in increasing order as b2j does, and keeping the
first strictly longer run. -/
def bestNext (b : PyStr) (blo bhi : Nat) (ai : Char) (cur : Nat → Nat)
    (i : Nat) (best : Nat × Nat × Nat) : Nat × Nat × Nat :=
  (List.range' blo (bhi - blo)).foldl
    (fun best j =>
      if ¬ isPopular b ai ∧ b[j]? = some ai then
        (if best.2.2 < cur j then (i + 1 - cur j, j + 1 - cur j, cur j) else best)
      else best)
    best

/-- The dynamic-program phase of find_longest_match over the window
from (alo, blo) to (ahi, bhi), exclusive. -/
def flmCore (a b : PyStr) (alo ahi blo bhi : Nat) : Nat × Nat × Nat :=
  ((List.range' alo (ahi - alo)).foldl
    (fun (st : (Nat → Nat) × (Nat × Nat × Nat)) i =>
      match a[i]? with
      | none => st
      | some ai =>
        let cur := j2lenNext b blo bhi ai st.1
        (cur, bestNext b blo bhi ai cur i st.2))
    (fun _ => 0, (alo, blo, 0))).2

/-- Character equality at a pair of in-range positions. -/
def chEq (a b : PyStr) (i j : Nat) : Bool :=
  match a[i]?, b[j]? with
  | some x, some y => decide (x = y)
  | _, _ => false

/-- The left extension loop of find_longest_match (the junk set is empty,
so only the plain-equality loop can fire). -/
def extendLo (a b : PyStr) (alo blo besti bestj bestsize : Nat) :
    Nat × Nat × Nat :=
  if _h : alo < besti ∧ blo < bestj ∧ chEq a b (besti - 1) (bestj - 1) = true then
    extendLo a b alo blo (besti - 1) (bestj - 1) (bestsize + 1)
  else (besti, bestj, bestsize)
termination_by besti
decreasing_by omega

/-- The right extension loop of find_longest_match. -/
def extendHi (a b : PyStr) (ahi bhi besti bestj bestsize : Nat) :
    Nat × Nat × Nat :=
  if h : besti + bestsize < ahi ∧ bestj + bestsize < bhi ∧
      chEq a b (besti + bestsize) (bestj + bestsize) = true then
    extendHi a b ahi bhi besti bestj (bestsize + 1)
  else (besti, bestj, bestsize)
termination_by ahi - (besti + bestsize)
decreasing_by omega

/-- find_longest_match of SequenceMatcher with an empty junk set: the
dynamic program, then the left and right plain extension loops. -/
def find_longest_match (a b : PyStr) (alo ahi blo bhi : Nat) :
    Nat × Nat × Nat :=
  let d := flmCore a b alo ahi blo bhi
  let l := extendLo a b alo blo d.1 d.2.1 d.2.2
  extendHi a b ahi bhi l.1 l.2.1 l.2.2

/-- Total size of the matching blocks collected by get_matching_blocks:
the queue recursion of difflib, with the sizes summed directly (the final
sort-and-merge of adjacent blocks preserves the sum, and ratio only uses
the sum).  The window bounds in the test always hold for a match the
program returns; they are carried so that the recursion is well-founded,
and a match of size 0 stops the recursion exactly as in difflib. -/
def matchTotal (a b : PyStr) (alo ahi blo bhi : Nat) : Nat :=
  match find_longest_match a b alo ahi blo bhi with
  | (i, j, k) =>
    if _h : 0 < k ∧ alo ≤ i ∧ i + k ≤ ahi ∧ blo ≤ j ∧ j + k ≤ bhi then
      k + matchTotal a b alo i blo j + matchTotal a b (i + k) ahi (j + k) bhi
    else 0
termination_by (ahi - alo) + (bhi - blo)
decreasing_by
  · omega
  · omega

/-- SequenceMatcher(None, a, b).ratio(): twice the matched size over the
total length, and 1.0 when both sequences are empty. -/
def smRatio (a b : PyStr) : ℚ :=
  if a.length + b.length = 0 then 1
  else 2 * (matchTotal a b 0 a.length 0 b.length : ℚ) / ((a.length : ℚ) + (b.length : ℚ))

/-!
ContextAssembler of app/utils/context_assembler.py.  A search hit is
normalized by _to_simple to id, payload and score; the payload keys read by
the assembler are modelled as fields, an absent key and an empty value both
being falsy in the Python or-chains.  The chunk_index payload value is an
integer or the float-inf sentinel after normalization; none models the
sentinel.
-/

/-- The payload fields the assembler reads (sectionKey models the payload
key named section, which is a reserved word here). -/
structure Payload where
  section_path : PyStr := []
  sectionKey : PyStr := []
  sectionPath : PyStr := []
  source : PyStr := []
  doc_title : PyStr := []
  document : PyStr := []
  content : PyStr := []
  text : PyStr := []
  body : PyStr := []
  chunk_index : Option Int := none
deriving DecidableEq

/-- A normalized search hit as produced by _to_simple. -/
structure Hit where
  id : Nat
  payload : Payload
  score : ℚ
deriving DecidableEq

/-- Python x or y on strings: the empty string is falsy. -/
def pyOr (a b : PyStr) : PyStr := if a = [] then b else a

/-- The content or-chain of group_by_section. -/
def contentOf (p : Payload) : PyStr := pyOr p.content (pyOr p.text p.body)

/-- The section or-chain of group_by_section. -/
def sectOf (p : Payload) : PyStr :=
  pyOr p.section_path (pyOr p.sectionKey p.sectionPath)

/-- The source or-chain of group_by_section. -/
def sourceOf (p : Payload) : PyStr :=
  pyOr p.source (pyOr p.doc_title p.document)

/-- A grouped item of group_by_section. -/
structure Item where
  id : Nat
  chunk_index : Option Int
  text : PyStr
  score : ℚ
  source : PyStr
deriving DecidableEq

/-- The grouping key: the stripped section, else a synthetic
per-document placeholder. -/
def groupKey (p : Payload) : PyStr :=
  pyOr (pyStrip (sectOf p))
    (("__no_section__::".data) ++ pyOr (sourceOf p) ("unknown".data))

/-- Append an item under a key of an insertion-ordered association list
(defaultdict with insertion-ordered keys). -/
def groupInsert (g : List (PyStr × List Item)) (key : PyStr) (it : Item) :
    List (PyStr × List Item) :=
  match g with
  | [] => [(key, [it])]
  | (k, its) :: rest =>
    if k = key then (k, its ++ [it]) :: rest
    else (k, its) :: groupInsert rest key it

/-- The item built for one hit. -/
def mkItem (h : Hit) : Item :=
  { id := h.id, chunk_index := h.payload.chunk_index,
    text := pyStrip (contentOf h.payload), score := h.score,
    source := sourceOf h.payload }

/-- One step of group_by_section: a hit with no content under any of the
content, text and body keys is skipped. -/
def groupStep (g : List (PyStr × List Item)) (h : Hit) :
    List (PyStr × List Item) :=
  if contentOf h.payload = [] then g
  else groupInsert g (groupKey h.payload) (mkItem h)

/-- group_by_section of ContextAssembler. -/
def group_by_section (hits : List Hit) : List (PyStr × List Item) :=
  hits.foldl groupStep []

/-- A stitched context block. -/
structure Block where
  sectionName : PyStr
  text : PyStr
  source : PyStr
  chunk_indices : List (Option Int)
  avg_score : ℚ
deriving DecidableEq

/-- flush_current of stitch_neighbors: an empty group adds nothing, else
the texts are joined by newline, the first nonempty member source is kept
and the scores are averaged. -/
def flushBlock (sectionName : PyStr) (grp : List Item) (stitched : List Block) :
    List Block :=
  if grp = [] then stitched
  else
    stitched ++
      [{ sectionName := sectionName,
         text := pyJoin ['\n'] (grp.map Item.text),
         source := ((grp.map Item.source).filter (fun s => decide (s ≠ []))).headD [],
         chunk_indices := grp.map Item.chunk_index,
         avg_score := if grp.length = 0 then 0
           else (grp.map Item.score).sum / (grp.length : ℚ) }]

/-- The neighbor test of stitch_neighbors, under IEEE semantics for the
float-inf sentinel: inf minus inf is NaN and every NaN comparison is false;
inf minus a number is inf, never small; a number minus inf is minus
infinity, always small. -/
def gapLe (idx last : Option Int) (gap : Int) : Bool :=
  match idx, last with
  | some i, some l => decide (i - l ≤ gap)
  | some _, none => true
  | none, some _ => false
  | none, none => false

/-- The sort key of stitch_neighbors: chunk_index with the inf sentinel
largest; the sort is stable, so ties keep list order. -/
def idxLeB (x y : Item) : Bool :=
  match x.chunk_index, y.chunk_index with
  | some a, some b => decide (a ≤ b)
  | some _, none => true
  | none, some _ => false
  | none, none => true

/-- The stitching walk over one sorted section: the second list is the
current group, the third the last index seen (none before the first item). -/
def stitchGo (gap : Int) (sectionName : PyStr) :
    List Item → List Item → Option (Option Int) → List Block → List Block
  | [], cur, _, st => flushBlock sectionName cur st
  | it :: rest, cur, last, st =>
    match last with
    | none => stitchGo gap sectionName rest [it] (some it.chunk_index) st
    | some l =>
      if gapLe it.chunk_index l gap then
        stitchGo gap sectionName rest (cur ++ [it]) (some it.chunk_index) st
      else
        stitchGo gap sectionName rest [it] (some it.chunk_index)
          (flushBlock sectionName cur st)

/-- stitch_neighbors of ContextAssembler. -/
def stitch_neighbors (gap : Int) (grouped : List (PyStr × List Item)) :
    List Block :=
  grouped.foldl
    (fun st kv =>
      stitchGo gap kv.1 (kv.2.insertionSort (fun x y => idxLeB x y = true)) [] none st)
    []

/-- is_similar of ContextAssembler: false when either text is empty, else
the SequenceMatcher ratio compared against the threshold. -/
def is_similar (threshold : ℚ) (a b : PyStr) : Bool :=
  if a = [] ∨ b = [] then false else decide (threshold < smRatio a b)

/-- One step of deduplicate: keep the block unless it is similar to an
already kept one (the first occurrence wins). -/
def dedupStep (threshold : ℚ) (unique : List Block) (b : Block) : List Block :=
  if unique.any (fun u => is_similar threshold b.text u.text) then unique
  else unique ++ [b]

/-- deduplicate of ContextAssembler. -/
def deduplicate (threshold : ℚ) (blocks : List Block) : List Block :=
  blocks.foldl (dedupStep threshold) []

/-- The final sort key: average score descending; the sort is stable. -/
def scoreDescB (x y : Block) : Bool := decide (y.avg_score ≤ x.avg_score)

/-- The assembler configuration with its constructor defaults. -/
structure ContextAssembler where
  max_chunks : Nat := 6
  similarity_threshold : ℚ := 4 / 5
  neighbor_gap : Int := 1

/-- The blocks assemble selects and renders, with the early returns of the
Python code; assemble renders exactly these blocks. -/
def ContextAssembler.assembleBlocks (ca : ContextAssembler) (hits : List Hit) :
    List Block :=
  if hits = [] then []
  else if group_by_section hits = [] then []
  else if stitch_neighbors ca.neighbor_gap (group_by_section hits) = [] then []
  else
    ((deduplicate ca.similarity_threshold
        (stitch_neighbors ca.neighbor_gap (group_by_section hits))).insertionSort
      (fun x y => scoreDescB x y = true)).take ca.max_chunks

/-- Decimal digits of a natural number. -/
def natDigits (n : Nat) : PyStr := Nat.toDigits 10 n

/-- Python repr of an integer. -/
def intRepr (i : Int) : PyStr :=
  if i < 0 then '-' :: natDigits i.natAbs else natDigits i.natAbs

/-- Python repr of a chunk index, the missing-index sentinel printing as
inf. -/
def idxRepr : Option Int → PyStr
  | some i => intRepr i
  | none => "inf".data

/-- Python repr of the chunk-index list. -/
def idxListRepr (xs : List (Option Int)) : PyStr :=
  '[' :: (pyJoin (", ".data) (xs.map idxRepr)) ++ [']']

/-- Rounding half to even, as Python string formatting rounds. -/
def roundHalfEven (q : ℚ) : Int :=
  let f := ⌊q⌋
  if q - f < 1 / 2 then f
  else if (1 : ℚ) / 2 < q - f then f + 1
  else if f % 2 = 0 then f else f + 1

/-- The AvgScore format of the header, three decimals.  Python formats the
binary double nearest the score; this formats the exact rational, which
agrees away from the rounding error of a half-thousandth boundary.  No
claim evaluates it. -/
def fmt3 (q : ℚ) : PyStr :=
  let scaled := roundHalfEven (q * 1000)
  let sign : PyStr := if scaled < 0 then ['-'] else []
  let m := scaled.natAbs
  let fracPart := natDigits (m % 1000)
  sign ++ natDigits (m / 1000) ++ ['.']
    ++ List.replicate (3 - fracPart.length) '0' ++ fracPart

/-- The provenance header plus text of one rendered block. -/
def renderBlock (b : Block) : PyStr :=
  ("### Section: ".data) ++ b.sectionName
    ++ ("\nSource: ".data) ++ b.source
    ++ ("\nChunkIndices: ".data) ++ idxListRepr b.chunk_indices
    ++ ("\nAvgScore: ".data) ++ fmt3 b.avg_score ++ ['\n'] ++ b.text

/-- assemble of ContextAssembler: the rendered blocks joined by the block
separator; each early return of the Python code yields the empty string,
which equals joining the empty block list. -/
def ContextAssembler.assemble (ca : ContextAssembler) (hits : List Hit) : PyStr :=
  pyJoin ("\n\n---\n\n".data) ((ca.assembleBlocks hits).map renderBlock)

/-- An assembler with the constructor defaults: max_chunks 6, similarity
threshold 0.80, neighbor gap 1. -/
def caDefault : ContextAssembler := {}

/-- C9: assembling the empty candidate list yields the empty context text
and the empty block list. -/
theorem assemble_empty (ca : ContextAssembler) :
    ca.assemble [] = [] ∧ ca.assembleBlocks [] = [] :=
  ⟨rfl, rfl⟩

/-- Grouping ignores the hits that carry no content. -/
theorem foldl_groupStep_filter (hits : List Hit) :
    ∀ g, hits.foldl groupStep g
      = (hits.filter (fun h => decide (contentOf h.payload ≠ []))).foldl groupStep g := by
  induction hits with
  | nil => intro g; rfl
  | cons h hs ih =>
    intro g
    by_cases hc : contentOf h.payload = []
    · rw [List.foldl_cons, List.filter_cons]
      have h1 : decide (contentOf h.payload ≠ []) = false := by simp [hc]
      simp only [h1, Bool.false_eq_true, if_false]
      rw [show groupStep g h = g from if_pos hc]
      exact ih g
    · rw [List.foldl_cons, List.filter_cons]
      have h1 : decide (contentOf h.payload ≠ []) = true := by simp [hc]
      simp only [h1, if_true, List.foldl_cons]
      exact ih (groupStep g h)

/-- Grouping a list of contentless hits leaves the accumulator unchanged. -/
theorem foldl_groupStep_of_contentless (hits : List Hit)
    (h : ∀ x ∈ hits, contentOf x.payload = []) :
    ∀ g, hits.foldl groupStep g = g := by
  induction hits with
  | nil => intro g; rfl
  | cons x hs ih =>
    intro g
    rw [List.foldl_cons, show groupStep g x = g from if_pos (h x (by simp))]
    exact ih (fun y hy => h y (by simp [hy])) g

/-- C10: the assembler silently excludes every hit whose payload holds no
nonempty value under the content, text or body keys: grouping coincides
with grouping the filtered hit list, and when every hit lacks content the
assembler returns the empty context even on a nonempty input list. -/
theorem assemble_excludes_contentless (ca : ContextAssembler) (hits : List Hit) :
    group_by_section hits
      = group_by_section (hits.filter (fun h => decide (contentOf h.payload ≠ []))) ∧
    ((∀ h ∈ hits, contentOf h.payload = []) →
      ca.assembleBlocks hits = [] ∧ ca.assemble hits = []) := by
  constructor
  · exact foldl_groupStep_filter hits []
  · intro hall
    have hg : group_by_section hits = [] :=
      foldl_groupStep_of_contentless hits hall []
    have hb : ca.assembleBlocks hits = [] := by
      unfold ContextAssembler.assembleBlocks
      by_cases hh : hits = []
      · simp [hh]
      · simp [hh, hg]
    exact ⟨hb, by simp [ContextAssembler.assemble, hb, pyJoin]⟩

/-- A hit with a payload empty under every key. -/
def hitNoContent : Hit := { id := 0, payload := {}, score := 0 }

/-- Witness for C10 at a concrete contentless hit. -/
theorem assemble_excludes_contentless_witness :
    (∀ h ∈ [hitNoContent], contentOf h.payload = []) ∧
    caDefault.assembleBlocks [hitNoContent] = [] ∧
    caDefault.assemble [hitNoContent] = [] :=
  ⟨by decide,
    (assemble_excludes_contentless caDefault [hitNoContent]).2 (by decide)⟩

/-- Within the deduplicated list, every later block fails the similarity
test against every earlier block, in the order the code compares them. -/
theorem deduplicate_pairwise (threshold : ℚ) (blocks : List Block) :
    (deduplicate threshold blocks).Pairwise
      (fun u v => is_similar threshold v.text u.text = false) := by
  have main : ∀ (bs acc : List Block),
      acc.Pairwise (fun u v => is_similar threshold v.text u.text = false) →
      (bs.foldl (dedupStep threshold) acc).Pairwise
        (fun u v => is_similar threshold v.text u.text = false) := by
    intro bs
    induction bs with
    | nil => intro acc h; exact h
    | cons b bs ih =>
      intro acc h
      rw [List.foldl_cons]
      apply ih
      unfold dedupStep
      split
      · exact h
      · rename_i hany
        rw [List.pairwise_append]
        refine ⟨h, List.pairwise_singleton _ _, ?_⟩
        intro u hu v hv
        have hv1 : v = b := by simpa using hv
        subst hv1
        cases his : is_similar threshold v.text u.text
        · rfl
        · exact absurd (List.any_eq_true.2 ⟨u, hu, his⟩) hany
  exact main blocks [] List.Pairwise.nil

/-- A failed similarity test on nonempty texts bounds the ratio. -/
theorem is_similar_false_le {threshold : ℚ} {a b : PyStr}
    (h : is_similar threshold a b = false) (ha : a ≠ []) (hb : b ≠ []) :
    smRatio a b ≤ threshold := by
  unfold is_similar at h
  rw [if_neg (not_or.mpr ⟨ha, hb⟩)] at h
  exact not_lt.mp (by simpa using h)

/-- C3 amended: assemble emits at most max_chunks blocks, and among the
emitted blocks with nonempty text no two are similar above the threshold
(in the comparison order deduplication used for the pair); blocks whose
stitched text is empty bypass the similarity test. -/
theorem assembleBlocks_bounded_dedup (ca : ContextAssembler) (hits : List Hit) :
    (ca.assembleBlocks hits).length ≤ ca.max_chunks ∧
    (ca.assembleBlocks hits).Pairwise
      (fun u v => u.text ≠ [] → v.text ≠ [] →
        smRatio v.text u.text ≤ ca.similarity_threshold ∨
        smRatio u.text v.text ≤ ca.similarity_threshold) := by
  unfold ContextAssembler.assembleBlocks
  by_cases h1 : hits = []
  · simp [h1]
  by_cases h2 : group_by_section hits = []
  · simp [h1, h2]
  by_cases h3 : stitch_neighbors ca.neighbor_gap (group_by_section hits) = []
  · simp [h1, h2, h3]
  rw [if_neg h1, if_neg h2, if_neg h3]
  constructor
  · simp [List.length_take]
  · have h4 := deduplicate_pairwise ca.similarity_threshold
      (stitch_neighbors ca.neighbor_gap (group_by_section hits))
    have h5 : (deduplicate ca.similarity_threshold
        (stitch_neighbors ca.neighbor_gap (group_by_section hits))).Pairwise
        (fun u v => is_similar ca.similarity_threshold v.text u.text = false ∨
          is_similar ca.similarity_threshold u.text v.text = false) :=
      h4.imp (fun hr => Or.inl hr)
    have hperm := List.perm_insertionSort (fun x y => scoreDescB x y = true)
      (deduplicate ca.similarity_threshold
        (stitch_neighbors ca.neighbor_gap (group_by_section hits)))
    have h6 := (hperm.pairwise_iff (fun hs => hs.symm)).2 h5
    have h7 := List.Pairwise.sublist (List.take_sublist ca.max_chunks _) h6
    refine h7.imp ?_
    intro u v hs hu hv
    exact hs.elim (fun hx => Or.inl (is_similar_false_le hx hv hu))
      (fun hx => Or.inr (is_similar_false_le hx hu hv))

/-- A hit whose payload content is one space in section a. -/
def hitA : Hit :=
  { id := 1, payload := { sectionKey := ['a'], content := [' '] }, score := 1 }

/-- A hit whose payload content is one space in section b. -/
def hitB : Hit :=
  { id := 2, payload := { sectionKey := ['b'], content := [' '] }, score := 0 }

/-- The block the counterexample hits produce for section a. -/
def blockA : Block :=
  { sectionName := ['a'], text := [], source := [], chunk_indices := [none],
    avg_score := 1 }

/-- The block the counterexample hits produce for section b. -/
def blockB : Block :=
  { sectionName := ['b'], text := [], source := [], chunk_indices := [none],
    avg_score := 0 }

/-- C3 counterexample: two hits whose payload content is whitespace only
produce two emitted blocks whose texts are both empty; the SequenceMatcher
ratio of the two emitted texts is 1, above the 0.80 threshold, refuting the
claim that no two emitted blocks are similar above the threshold. -/
theorem assembleBlocks_dup_counterexample :
    (caDefault.assembleBlocks [hitA, hitB]).map Block.text = [[], []] ∧
    caDefault.similarity_threshold < smRatio [] [] := by
  have hg : group_by_section [hitA, hitB]
      = [(['a'], [({ id := 1, chunk_index := none, text := [], score := 1,
                     source := [] } : Item)]),
         (['b'], [({ id := 2, chunk_index := none, text := [], score := 0,
                     source := [] } : Item)])] := by
    decide
  have hst : stitch_neighbors caDefault.neighbor_gap (group_by_section [hitA, hitB])
      = [blockA, blockB] := by
    rw [hg]
    norm_num [stitch_neighbors, stitchGo, flushBlock, idxLeB, caDefault,
      List.insertionSort, List.orderedInsert, pyJoin, blockA, blockB]
  have hdd : deduplicate caDefault.similarity_threshold
      (stitch_neighbors caDefault.neighbor_gap (group_by_section [hitA, hitB]))
      = [blockA, blockB] := by
    rw [hst]
    norm_num [deduplicate, dedupStep, is_similar, blockA, blockB]
  have hsort : (deduplicate caDefault.similarity_threshold
      (stitch_neighbors caDefault.neighbor_gap
        (group_by_section [hitA, hitB]))).insertionSort
      (fun x y => scoreDescB x y = true) = [blockA, blockB] := by
    rw [hdd]
    norm_num [List.insertionSort, List.orderedInsert, scoreDescB, blockA, blockB]
  have hfinal : caDefault.assembleBlocks [hitA, hitB] = [blockA, blockB] := by
    unfold ContextAssembler.assembleBlocks
    rw [if_neg (by decide : ¬ ([hitA, hitB] = ([] : List Hit)))]
    rw [if_neg (by rw [hg]; decide :
      ¬ (group_by_section [hitA, hitB] = []))]
    rw [if_neg (by rw [hst]; decide :
      ¬ (stitch_neighbors caDefault.neighbor_gap (group_by_section [hitA, hitB]) = []))]
    rw [hsort]
    rfl
  constructor
  · rw [hfinal]
    rfl
  · have h1 : smRatio [] [] = 1 := rfl
    rw [h1]
    norm_num [caDefault]

/-- Witness for C3 applied at the concrete counterexample input. -/
theorem assembleBlocks_bounded_dedup_witness :
    (caDefault.assembleBlocks [hitA, hitB]).length ≤ caDefault.max_chunks :=
  (assembleBlocks_bounded_dedup caDefault [hitA, hitB]).1

/-!
Semantic Chunker of app/utils/semantic_chunker.py.  The sentence embeddings
come from the external embedding provider (generate_embeddings_batch, one
vector per sentence) and are a parameter; numpy doubles are rationals
extended with NaN and the signed infinities.
-/

/-- A numpy double restricted to the values this pipeline can produce. -/
inductive NpFloat where
  | val : ℚ → NpFloat
  | nan : NpFloat
  | inf : NpFloat
  | ninf : NpFloat
deriving DecidableEq

/-- IEEE division as numpy performs it: a zero divisor yields NaN on a zero
dividend and a signed infinity otherwise, raising no error (numpy emits a
warning only). -/
def npDiv (a b : ℚ) : NpFloat :=
  if b = 0 then
    (if a = 0 then NpFloat.nan else if 0 < a then NpFloat.inf else NpFloat.ninf)
  else NpFloat.val (a / b)

/-- The IEEE comparison x < t: false whenever x is NaN or plus infinity. -/
def NpFloat.ltB : NpFloat → ℚ → Bool
  | NpFloat.val q, t => decide (q < t)
  | NpFloat.nan, _ => false
  | NpFloat.inf, _ => false
  | NpFloat.ninf, _ => true

/-- numpy.dot on two vectors of one embedding batch (numpy raises on a
length mismatch; the embedding provider returns a single dimensionality,
and no claim depends on the mismatch case). -/
def dotQ (v w : List ℚ) : ℚ := (List.zipWith (fun a b => a * b) v w).sum

/-- Sum of squares of a vector. -/
def sumSq (v : List ℚ) : ℚ := (v.map (fun x => x * x)).sum

/-- Integer square root by bounded search; exact on the perfect squares,
the only points any claim evaluates. -/
def intSqrt (n : Nat) : Nat :=
  ((List.range (n + 1)).filter (fun k => decide (k * k ≤ n))).foldr max 0

/-- Model of the float square root of numpy.linalg.norm: exact at perfect
squares, in particular at 0; the float square root of 0 is exactly 0, and
every claim evaluates the square root at 0 only. -/
def floatSqrt (q : ℚ) : ℚ := (intSqrt q.num.natAbs : ℚ) / (intSqrt q.den : ℚ)

/-- cosine_similarity of semantic_chunker.py: the dot product over the
product of the norms, with IEEE semantics when the divisor is zero. -/
def cosine_similarity (v1 v2 : List ℚ) : NpFloat :=
  npDiv (dotQ v1 v2) (floatSqrt (sumSq v1) * floatSqrt (sumSq v2))

/-- First character of the accumulated segment is sentence-final
punctuation (the accumulator is reversed, so this is the last character
consumed). -/
def headPunct : PyStr → Bool
  | p :: _ => p = '.' || p = '!' || p = '?'
  | [] => false

/-- The lookbehind split of re.split: cut at each maximal run of separator
characters that follows one of . ! ?, dropping the run.  The Bool is true
while consuming a run; the accumulator holds the current segment
reversed. -/
def sentSplitGo (isSep : Char → Bool) : Bool → PyStr → PyStr → List PyStr
  | false, acc, [] => [acc.reverse]
  | false, acc, c :: cs =>
    if isSep c && headPunct acc then acc.reverse :: sentSplitGo isSep true [] cs
    else sentSplitGo isSep false (c :: acc) cs
  | true, _, [] => [[]]
  | true, _, c :: cs =>
    if isSep c then sentSplitGo isSep true [] cs
    else sentSplitGo isSep false [c] cs

/-- re.split of a text at separator runs after sentence punctuation. -/
def splitSentences (isSep : Char → Bool) (text : PyStr) : List PyStr :=
  sentSplitGo isSep false [] text

/-- The sentence list of semantic_chunk_text: the split of the text at
space runs after punctuation, each sentence stripped, empties dropped. -/
def sentencesOf (text : PyStr) : List PyStr :=
  ((splitSentences (fun c => decide (c = ' ')) text).map pyStrip).filter
    (fun s => decide (s ≠ []))

/-- The chunk-building walk of semantic_chunk_text: i is the position of
the next sentence, and the similarity compares the embeddings of positions
i - 1 and i exactly as the loop threads last_vec.  A chunk is committed
when the similarity test fails the threshold or the merged candidate
exceeds the cap; NaN compares false, so only the cap can then commit. -/
def chunkGo (emb : Nat → List ℚ) (threshold : ℚ) (max_tokens : Nat) :
    List PyStr → Nat → List PyStr → PyStr → List PyStr
  | [], _, chunks, cur =>
    if pyStrip cur ≠ [] then chunks ++ [pyStrip cur] else chunks
  | s :: rest, i, chunks, cur =>
    let sim := cosine_similarity (emb (i - 1)) (emb i)
    let candidate := cur ++ ' ' :: s
    if sim.ltB threshold || decide (max_tokens < candidate.length) then
      chunkGo emb threshold max_tokens rest (i + 1) (chunks ++ [pyStrip cur]) s
    else chunkGo emb threshold max_tokens rest (i + 1) chunks candidate

/-- semantic_chunk_text of semantic_chunker.py, the embedding batch passed
as a function from sentence positions to vectors. -/
def semantic_chunk_text (emb : Nat → List ℚ) (text : PyStr) (max_tokens : Nat)
    (threshold : ℚ) : List PyStr :=
  match sentencesOf text with
  | [] => []
  | s0 :: rest => chunkGo emb threshold max_tokens rest 1 [] s0

/-- Unfolding equation of pyRstrip on the empty string. -/
theorem pyRstrip_nil : pyRstrip [] = [] := rfl

/-- Unfolding equation of pyRstrip on a cons cell. -/
theorem pyRstrip_cons (c : Char) (cs : PyStr) :
    pyRstrip (c :: cs)
      = if pyRstrip cs = [] then (if pyIsSpace c then [] else [c])
        else c :: pyRstrip cs := rfl

/-- Python rstrip never lengthens a string. -/
theorem pyRstrip_length_le (s : PyStr) : (pyRstrip s).length ≤ s.length := by
  induction s with
  | nil => exact Nat.le_refl 0
  | cons c cs ih =>
    rw [pyRstrip_cons]
    by_cases h : pyRstrip cs = []
    · rw [if_pos h]
      by_cases hc : pyIsSpace c
      · simp [hc]
      · simp [hc]

    · rw [if_neg h]
      simpa using ih

/-- Python rstrip is idempotent. -/
theorem pyRstrip_idem (s : PyStr) : pyRstrip (pyRstrip s) = pyRstrip s := by
  induction s with
  | nil => rfl
  | cons c cs ih =>
    rw [pyRstrip_cons]
    by_cases h : pyRstrip cs = []
    · rw [if_pos h]
      by_cases hc : pyIsSpace c
      · simp [hc, pyRstrip_nil]
      · simp [hc, pyRstrip_cons, pyRstrip_nil]
    · rw [if_neg h, pyRstrip_cons, ih, if_neg h]

/-- Python rstrip keeps the first character of its argument, when it keeps
anything at all. -/
theorem pyRstrip_head (s : PyStr) :
    pyRstrip s = [] ∨ (pyRstrip s).head? = s.head? := by
  cases s with
  | nil => exact Or.inl rfl
  | cons c cs =>
    rw [pyRstrip_cons]
    by_cases h : pyRstrip cs = []
    · rw [if_pos h]
      by_cases hc : pyIsSpace c
      · exact Or.inl (by simp [hc])
      · exact Or.inr (by simp [hc])
    · rw [if_neg h]
      exact Or.inr rfl

/-- dropWhile removes nothing more from its own result. -/
theorem dropWhile_idem {α : Type} (p : α → Bool) (l : List α) :
    (l.dropWhile p).dropWhile p = l.dropWhile p := by
  induction l with
  | nil => rfl
  | cons a l ih =>
    by_cases h : p a
    · rw [List.dropWhile_cons_of_pos h, ih]
    · rw [List.dropWhile_cons_of_neg h, List.dropWhile_cons_of_neg h]

/-- dropWhile never lengthens a list. -/
theorem dropWhile_length_le {α : Type} (p : α → Bool) (l : List α) :
    (l.dropWhile p).length ≤ l.length := by
  induction l with
  | nil => exact Nat.le_refl 0
  | cons a l ih =>
    by_cases h : p a
    · rw [List.dropWhile_cons_of_pos h]
      exact ih.trans (Nat.le_succ _)
    · rw [List.dropWhile_cons_of_neg h]

/-- A stripped string has no leading whitespace left. -/
theorem dropWhile_pyStrip (s : PyStr) :
    (pyStrip s).dropWhile pyIsSpace = pyStrip s := by
  unfold pyStrip
  rcases pyRstrip_head (s.dropWhile pyIsSpace) with h | h
  · rw [h]
    rfl
  · cases hh : pyRstrip (s.dropWhile pyIsSpace) with
    | nil => rfl
    | cons c r =>
      rw [hh] at h
      have hc : pyIsSpace c = false := by
        have h2 := List.head?_dropWhile_not pyIsSpace s
        rw [show (s.dropWhile pyIsSpace).head? = some c from by rw [← h]; rfl] at h2
        simpa using h2
      rw [List.dropWhile_cons_of_neg (by simp [hc])]

/-- Python strip is idempotent. -/
theorem pyStrip_idem (s : PyStr) : pyStrip (pyStrip s) = pyStrip s := by
  have h1 : pyStrip (pyStrip s) = pyRstrip ((pyStrip s).dropWhile pyIsSpace) := rfl
  rw [h1, dropWhile_pyStrip]
  exact pyRstrip_idem _

/-- Python strip never lengthens a string. -/
theorem pyStrip_length_le (s : PyStr) : (pyStrip s).length ≤ s.length :=
  (pyRstrip_length_le _).trans (dropWhile_length_le _ _)

/-- Every sentence of sentencesOf is stripped. -/
theorem sentencesOf_stripped (text : PyStr) :
    ∀ s ∈ sentencesOf text, pyStrip s = s := by
  intro s hs
  unfold sentencesOf at hs
  have hs2 := List.mem_filter.1 hs
  rcases List.mem_map.1 hs2.1 with ⟨t, _, rfl⟩
  exact pyStrip_idem t

/-- The invariant of the chunk-building walk: every emitted chunk fits the
cap or is one of the sentences. -/
theorem chunkGo_mem (emb : Nat → List ℚ) (threshold : ℚ) (max_tokens : Nat)
    (sents : List PyStr) (hstrip : ∀ s ∈ sents, pyStrip s = s) :
    ∀ (rest : List PyStr) (i : Nat) (chunks : List PyStr) (cur : PyStr),
      (∀ s ∈ rest, s ∈ sents) → (cur ∈ sents ∨ cur.length ≤ max_tokens) →
      (∀ c ∈ chunks, c.length ≤ max_tokens ∨ c ∈ sents) →
      ∀ c ∈ chunkGo emb threshold max_tokens rest i chunks cur,
        c.length ≤ max_tokens ∨ c ∈ sents := by
  intro rest
  induction rest with
  | nil =>
    intro i chunks cur _ hcur hchunks c hc
    rw [chunkGo] at hc
    by_cases hs : pyStrip cur ≠ []
    · rw [if_pos hs] at hc
      rcases List.mem_append.1 hc with h | h
      · exact hchunks c h
      · have hcc : c = pyStrip cur := by simpa using h
        subst hcc
        rcases hcur with hmem | hlen
        · exact Or.inr (by rw [hstrip cur hmem]; exact hmem)
        · exact Or.inl ((pyStrip_length_le cur).trans hlen)
    · rw [if_neg hs] at hc
      exact hchunks c hc
  | cons s rest ih =>
    intro i chunks cur hrest hcur hchunks c hc
    rw [chunkGo] at hc
    split at hc
    · refine ih (i + 1) (chunks ++ [pyStrip cur]) s
        (fun x hx => hrest x (List.mem_cons_of_mem _ hx))
        (Or.inl (hrest s (List.mem_cons_self _ _))) ?_ c hc
      intro x hx
      rcases List.mem_append.1 hx with h | h
      · exact hchunks x h
      · have hcc : x = pyStrip cur := by simpa using h
        subst hcc
        rcases hcur with hmem | hlen
        · exact Or.inr (by rw [hstrip cur hmem]; exact hmem)
        · exact Or.inl ((pyStrip_length_le cur).trans hlen)
    · rename_i hcond
      refine ih (i + 1) chunks (cur ++ ' ' :: s)
        (fun x hx => hrest x (List.mem_cons_of_mem _ hx)) ?_ hchunks c hc
      right
      simp only [Bool.or_eq_true, decide_eq_true_eq, not_or] at hcond
      exact Nat.not_lt.1 hcond.2

/-- C4: every chunk of semantic_chunk_text has character length at most the
cap, or is a single input sentence emitted unsplit. -/
theorem semantic_chunk_text_cap (emb : Nat → List ℚ) (text : PyStr)
    (max_tokens : Nat) (threshold : ℚ) (c : PyStr)
    (hc : c ∈ semantic_chunk_text emb text max_tokens threshold) :
    c.length ≤ max_tokens ∨ c ∈ sentencesOf text := by
  unfold semantic_chunk_text at hc
  split at hc
  · simp at hc
  · rename_i s0 rest hsent
    refine chunkGo_mem emb threshold max_tokens (sentencesOf text)
      (sentencesOf_stripped text) rest 1 [] s0 ?_ ?_ (by simp) c hc
    · intro x hx
      rw [hsent]
      exact List.mem_cons_of_mem _ hx
    · left
      rw [hsent]
      exact List.mem_cons_self _ _

/-- The embedding function returning the empty vector everywhere. -/
def embZero : Nat → List ℚ := fun _ => []

/-- The float square root of 0 is exactly 0. -/
theorem floatSqrt_zero : floatSqrt 0 = 0 := by
  unfold floatSqrt
  have h1 : (0 : ℚ).num.natAbs = 0 := by norm_num
  rw [h1, show intSqrt 0 = 0 from by decide]
  simp

/-- A vector of zeros has a zero sum of squares. -/
theorem sumSq_zero {v : List ℚ} (h : ∀ x ∈ v, x = 0) : sumSq v = 0 := by
  induction v with
  | nil => rfl
  | cons x xs ih =>
    have hx : x = 0 := h x (by simp)
    have hxs : sumSq xs = 0 := ih (fun y hy => h y (by simp [hy]))
    simp only [sumSq, List.map_cons, List.sum_cons] at hxs ⊢
    rw [hx, hxs]
    ring

/-- A zero left factor makes the dot product zero. -/
theorem dotQ_zero_left : ∀ (v w : List ℚ), (∀ x ∈ v, x = 0) → dotQ v w = 0 := by
  intro v
  induction v with
  | nil => intro w _; rfl
  | cons x xs ih =>
    intro w h
    cases w with
    | nil => rfl
    | cons y ys =>
      have hx : x = 0 := h x (by simp)
      have hxs := ih ys (fun z hz => h z (by simp [hz]))
      simp only [dotQ, List.zipWith_cons_cons, List.sum_cons] at hxs ⊢
      rw [hx, hxs]
      ring

/-- A zero right factor makes the dot product zero. -/
theorem dotQ_zero_right : ∀ (v w : List ℚ), (∀ x ∈ w, x = 0) → dotQ v w = 0 := by
  intro v
  induction v with
  | nil => intro w _; rfl
  | cons x xs ih =>
    intro w h
    cases w with
    | nil => rfl
    | cons y ys =>
      have hy : y = 0 := h y (by simp)
      have hxs := ih ys (fun z hz => h z (by simp [hz]))
      simp only [dotQ, List.zipWith_cons_cons, List.sum_cons] at hxs ⊢
      rw [hy, hxs]
      ring

/-- C8 amended: a zero vector on either side zeroes the norm product and
the dot product, so the division produces NaN: no error is raised, but the
result is non-numeric and is used as the similarity, and NaN compares false
against every threshold, so the boundary test never treats it as the
similarity 0 (which would fall below a positive threshold). -/
theorem cosine_similarity_zero_vector (v1 v2 : List ℚ) (threshold : ℚ)
    (h : (∀ x ∈ v1, x = 0) ∨ (∀ x ∈ v2, x = 0)) :
    cosine_similarity v1 v2 = NpFloat.nan ∧
    (cosine_similarity v1 v2).ltB threshold = false := by
  have hd : dotQ v1 v2 = 0 :=
    h.elim (dotQ_zero_left v1 v2) (dotQ_zero_right v1 v2)
  have hn : floatSqrt (sumSq v1) * floatSqrt (sumSq v2) = 0 := by
    rcases h with h | h
    · rw [sumSq_zero h, floatSqrt_zero, zero_mul]
    · rw [sumSq_zero h, floatSqrt_zero, mul_zero]
  have hc : cosine_similarity v1 v2 = NpFloat.nan := by
    unfold cosine_similarity
    rw [hd, hn]
    simp [npDiv]
  exact ⟨hc, by rw [hc]; rfl⟩

/-- Witness for C8 at the concrete vectors (0, 0) and (1, 2). -/
theorem cosine_similarity_zero_vector_witness :
    ((∀ x ∈ [(0 : ℚ), 0], x = 0) ∨ (∀ x ∈ [(1 : ℚ), 2], x = 0)) ∧
    cosine_similarity [(0 : ℚ), 0] [(1 : ℚ), 2] = NpFloat.nan ∧
    (cosine_similarity [(0 : ℚ), 0] [(1 : ℚ), 2]).ltB (3 / 4) = false := by
  have h : (∀ x ∈ [(0 : ℚ), 0], x = 0) ∨ (∀ x ∈ [(1 : ℚ), 2], x = 0) :=
    Or.inl (by decide)
  have h2 := cosine_similarity_zero_vector [(0 : ℚ), 0] [(1 : ℚ), 2] (3 / 4) h
  exact ⟨h, h2.1, h2.2⟩

/-- C8 counterexample: at the zero vectors the cosine evaluates to NaN,
not to the similarity 0 the spec states. -/
theorem cosine_similarity_zero_counterexample :
    cosine_similarity [(0 : ℚ)] [(0 : ℚ)] = NpFloat.nan ∧
    cosine_similarity [(0 : ℚ)] [(0 : ℚ)] ≠ NpFloat.val 0 := by
  have hd : dotQ [(0 : ℚ)] [(0 : ℚ)] = 0 := by
    simp [dotQ]
  have hs : sumSq [(0 : ℚ)] = 0 := by
    simp [sumSq]
  have h1 : cosine_similarity [(0 : ℚ)] [(0 : ℚ)] = NpFloat.nan := by
    unfold cosine_similarity
    rw [hd, hs, floatSqrt_zero, zero_mul]
    simp [npDiv]
  exact ⟨h1, by rw [h1]; simp⟩

/-!
QueryOptimizer of app/utils/query_optimizer.py.  The SentenceTransformer
embeddings and the nltk stopword list are external data and are parameters;
the token-ranking similarity divides by the norm product plus the 1e-8
guard, so its divisor is never zero and its value is an ordinary rational.
-/

/-- The character class kept by the cleaning regex: lowercase letters,
digits, whitespace. -/
def keepCh (c : Char) : Bool :=
  (decide ('a' ≤ c) && decide (c ≤ 'z'))
    || (decide ('0' ≤ c) && decide (c ≤ '9'))
    || pyIsSpace c

/-- clean of QueryOptimizer: lowercase, strip, then delete every character
outside the kept class (re.sub runs after lowercasing, so uppercase is
already gone). -/
def clean (query : PyStr) : PyStr := (pyStrip (pyLower query)).filter keepCh

/-- The stopword-and-length token filter of extract_keywords; repeated
query words stay repeated. -/
def filteredTokens (stop_words : List PyStr) (query : PyStr) : List PyStr :=
  (pySplit query).filter
    (fun t => !(stop_words.contains t) && decide (2 < t.length))

/-- The token-similarity score of extract_keywords: dot product over the
norm product plus the 1e-8 guard. -/
def tokenSim (emb : PyStr → List ℚ) (queryEmb : List ℚ) (t : PyStr) : ℚ :=
  dotQ (emb t) queryEmb
    / (floatSqrt (sumSq (emb t)) * floatSqrt (sumSq queryEmb) + 1 / 100000000)

/-- extract_keywords of QueryOptimizer: the surviving tokens ranked by
similarity to the query embedding, descending and stable, truncated to
top_k; when no token survives, the raw split of the query is returned
whole. -/
def extract_keywords (emb : PyStr → List ℚ) (stop_words : List PyStr)
    (top_k : Nat) (query : PyStr) : List PyStr :=
  if filteredTokens stop_words query = [] then pySplit query
  else
    ((((filteredTokens stop_words query).map
          (fun t => (t, tokenSim emb (emb query) t))).insertionSort
        (fun a b => b.2 ≤ a.2)).take top_k).map Prod.fst

/-- optimize of QueryOptimizer: clean, extract, join by spaces. -/
def optimize (emb : PyStr → List ℚ) (stop_words : List PyStr) (top_k : Nat)
    (query : PyStr) : PyStr :=
  pyJoin [' '] (extract_keywords emb stop_words top_k (clean query))

/-- Every word of a Python whitespace split is nonempty. -/
theorem pySplitGo_mem_ne_nil :
    ∀ (rest acc : PyStr), ∀ w ∈ pySplitGo acc rest, w ≠ [] := by
  intro rest
  induction rest with
  | nil =>
    intro acc w hw
    simp only [pySplitGo] at hw
    split at hw
    · simp at hw
    · rename_i hacc
      have hww : w = acc.reverse := by simpa using hw
      subst hww
      simpa using hacc
  | cons c cs ih =>
    intro acc w hw
    simp only [pySplitGo] at hw
    split at hw
    · split at hw
      · exact ih [] w hw
      · rename_i hacc
        rcases List.mem_cons.1 hw with h | h
        · subst h
          simpa using hacc
        · exact ih [] w h
    · exact ih (c :: acc) w hw

/-- Joining a nonempty list of nonempty parts is nonempty. -/
theorem pyJoin_ne_nil (sep : PyStr) (ws : List PyStr) (h1 : ws ≠ [])
    (h2 : ∀ w ∈ ws, w ≠ []) : pyJoin sep ws ≠ [] := by
  cases ws with
  | nil => exact absurd rfl h1
  | cons x xs =>
    cases xs with
    | nil => simpa [pyJoin] using h2 x (by simp)
    | cons y ys =>
      have hx := h2 x (by simp)
      simp only [pyJoin]
      intro hcon
      exact hx (List.append_eq_nil.1 (List.append_eq_nil.1 hcon).1).1

/-- C6 amended: when no token survives the stopword and length filter,
extract_keywords falls back to the raw tokenization of the cleaned query;
the optimized query is nonempty whenever top_k is positive and the cleaned
query still holds at least one whitespace token.  (A query whose cleaned
form has no token at all, such as a punctuation-only query, yields the
empty optimized query.) -/
theorem optimize_nonempty (emb : PyStr → List ℚ) (stop_words : List PyStr)
    (top_k : Nat) (query : PyStr) (hk : 0 < top_k)
    (hq : pySplit (clean query) ≠ []) :
    optimize emb stop_words top_k query ≠ [] ∧
    (filteredTokens stop_words (clean query) = [] →
      extract_keywords emb stop_words top_k (clean query)
        = pySplit (clean query)) := by
  constructor
  · unfold optimize
    apply pyJoin_ne_nil
    · unfold extract_keywords
      split
      · exact hq
      · rename_i hne
        have hpos : 0 < (filteredTokens stop_words (clean query)).length :=
          List.length_pos.2 hne
        intro hcon
        have hlen := congrArg List.length hcon
        simp only [List.length_map, List.length_take,
          List.length_insertionSort, List.length_nil] at hlen
        omega
    · intro w hw
      unfold extract_keywords at hw
      split at hw
      · exact pySplitGo_mem_ne_nil _ _ w hw
      · rcases List.mem_map.1 hw with ⟨pr, hpr, rfl⟩
        have h1 : pr ∈ ((filteredTokens stop_words (clean query)).map
            (fun t => (t, tokenSim emb (emb (clean query)) t))).insertionSort
            (fun a b => b.2 ≤ a.2) :=
          (List.take_sublist _ _).subset hpr
        have h2 : pr ∈ (filteredTokens stop_words (clean query)).map
            (fun t => (t, tokenSim emb (emb (clean query)) t)) :=
          (List.mem_insertionSort _).1 h1
        rcases List.mem_map.1 h2 with ⟨t, ht, rfl⟩
        have ht2 : t ∈ pySplit (clean query) := (List.mem_filter.1 ht).1
        exact pySplitGo_mem_ne_nil _ _ t ht2
  · intro hft
    unfold extract_keywords
    rw [if_pos hft]

/-- The all-empty string embedding. -/
def embStrZero : PyStr → List ℚ := fun _ => []

/-- Witness for C6 at a one-word query. -/
theorem optimize_nonempty_witness :
    0 < 5 ∧ pySplit (clean ("cats".data)) ≠ [] ∧
    optimize embStrZero [] 5 ("cats".data) ≠ [] :=
  ⟨by decide, by decide,
    (optimize_nonempty embStrZero [] 5 ("cats".data) (by decide) (by decide)).1⟩

/-- C6 counterexample: a punctuation-only query cleans to the empty string,
so the optimized query is empty, refuting the claim that optimize never
returns an empty optimized query. -/
theorem optimize_empty_counterexample :
    optimize embStrZero [] 5 ['!', '!', '!'] = [] := by decide

/-- C7 amended: when at least one token survives the filter,
extract_keywords returns at most top_k strings; when none survives, it
returns the whole raw tokenization, whose length can exceed top_k; repeated
query words may appear repeatedly in both branches. -/
theorem extract_keywords_bound (emb : PyStr → List ℚ) (stop_words : List PyStr)
    (top_k : Nat) (query : PyStr) :
    (filteredTokens stop_words query ≠ [] →
      (extract_keywords emb stop_words top_k query).length ≤ top_k) ∧
    (filteredTokens stop_words query = [] →
      extract_keywords emb stop_words top_k query = pySplit query) := by
  constructor
  · intro h
    unfold extract_keywords
    rw [if_neg h]
    simp only [List.length_map, List.length_take, List.length_insertionSort]
    exact Nat.min_le_left _ _
  · intro h
    unfold extract_keywords
    rw [if_pos h]

/-- Witness for C7 at a two-word query. -/
theorem extract_keywords_bound_witness :
    filteredTokens [] ("cats dogs".data) ≠ [] ∧
    (extract_keywords embStrZero [] 5 ("cats dogs".data)).length ≤ 5 :=
  ⟨by decide,
    (extract_keywords_bound embStrZero [] 5 ("cats dogs".data)).1 (by decide)⟩

/-- A six-fold repetition of a stopword. -/
def queryThe : PyStr := "the the the the the the".data

/-- C7 counterexample: with the stopword the filtered away, the fallback
returns all six repetitions: more than top_k strings and with duplicates,
refuting both parts of the claim. -/
theorem extract_keywords_counterexample :
    ¬ ((extract_keywords embStrZero ["the".data] 5 queryThe).length ≤ 5 ∧
       (extract_keywords embStrZero ["the".data] 5 queryThe).Nodup) := by
  decide

/-!
BM25Reranker of app/utils/bm25_reranker.py over rank_bm25.BM25Okapi.  The
constructor tokenizes the corpus by lowercase whitespace split and hands it
to BM25Okapi, whose _initialize computes avgdl = num_doc / corpus_size: a
ZeroDivisionError when the corpus is empty.  BM25Okapi.__init__ then calls
_calc_idf(nd), which applies math.log to per-word ratios of the
document-frequency map nd and ends with average_idf = idf_sum / len(idf),
where len(idf) = len(nd): a second ZeroDivisionError when no document of a
nonempty corpus holds a token.  The log arguments are positive whenever nd
is nonempty (freq + 0.5 and corpus_size - freq + 0.5 with freq at most
corpus_size), so construction raises in exactly those two cases; no claim
evaluates a score, so the state keeps nd, from which the idf table is
derived.
-/

/-- Python dict counter increment with insertion-order preservation. -/
def bumpWord (m : List (PyStr × Nat)) (w : PyStr) : List (PyStr × Nat) :=
  match m with
  | [] => [(w, 1)]
  | (k, n) :: rest =>
    if k = w then (k, n + 1) :: rest else (k, n) :: bumpWord rest w

/-- Per-document term frequencies, insertion ordered. -/
def wordFreqs (doc : List PyStr) : List (PyStr × Nat) := doc.foldl bumpWord []

/-- The state BM25Okapi builds when construction succeeds. -/
structure BM25Okapi where
  corpus_size : Nat
  doc_len : List Nat
  avgdl : ℚ
  doc_freqs : List (List (PyStr × Nat))
  nd : List (PyStr × Nat)

/-- The document-frequency map nd of BM25Okapi._initialize: each word of
each document bumps its count once per containing document, in insertion
order. -/
def bm25nd (corpus : List (List PyStr)) : List (PyStr × Nat) :=
  corpus.foldl (fun m doc => ((wordFreqs doc).map Prod.fst).foldl bumpWord m) []

/-- BM25Okapi construction on a tokenized corpus: _initialize walks the
corpus accumulating lengths and frequencies, then divides the token total
by the document count — ZeroDivisionError on an empty corpus before any
further work; _calc_idf then divides the idf sum by the size of the idf
table, which equals the size of nd — ZeroDivisionError when a nonempty
corpus holds no token at all. -/
def bm25okapi_init (corpus : List (List PyStr)) : Except PyStr BM25Okapi :=
  if corpus.length = 0 then
    Except.error ("ZeroDivisionError: division by zero".data)
  else if bm25nd corpus = [] then
    Except.error ("ZeroDivisionError: division by zero".data)
  else
    Except.ok
      { corpus_size := corpus.length,
        doc_len := corpus.map List.length,
        avgdl := ((corpus.map List.length).sum : ℚ) / (corpus.length : ℚ),
        doc_freqs := corpus.map wordFreqs,
        nd := bm25nd corpus }

/-- The reranker state: the BM25 index plus the corpus snapshot it keeps. -/
structure BM25Reranker where
  bm25 : BM25Okapi
  corpus : List PyStr

/-- BM25Reranker construction: lowercase-split tokenization, then
BM25Okapi. -/
def bm25reranker_init (corpus : List PyStr) : Except PyStr BM25Reranker :=
  match bm25okapi_init (corpus.map (fun d => pySplit (pyLower d))) with
  | Except.error e => Except.error e
  | Except.ok okapi => Except.ok { bm25 := okapi, corpus := corpus }

/-- A dict counter bump never empties the dict. -/
theorem bumpWord_ne_nil (m : List (PyStr × Nat)) (w : PyStr) :
    bumpWord m w ≠ [] := by
  cases m with
  | nil => simp [bumpWord]
  | cons kv rest =>
    obtain ⟨k, n⟩ := kv
    simp only [bumpWord]
    split <;> simp

/-- Folding bumps over any word list keeps a nonempty dict nonempty. -/
theorem foldl_bumpWord_ne_nil :
    ∀ (ws : List PyStr) (m : List (PyStr × Nat)), m ≠ [] →
      ws.foldl bumpWord m ≠ [] := by
  intro ws
  induction ws with
  | nil => intro m h; exact h
  | cons w ws ih =>
    intro m h
    rw [List.foldl_cons]
    exact ih _ (bumpWord_ne_nil m w)

/-- Folding bumps over a nonempty word list yields a nonempty dict. -/
theorem foldl_bumpWord_ne_nil_of_ne (ws : List PyStr) (m : List (PyStr × Nat))
    (h : ws ≠ []) : ws.foldl bumpWord m ≠ [] := by
  cases ws with
  | nil => exact absurd rfl h
  | cons w ws =>
    rw [List.foldl_cons]
    exact foldl_bumpWord_ne_nil ws _ (bumpWord_ne_nil m w)

/-- A document has an empty frequency dict exactly when it has no token. -/
theorem wordFreqs_eq_nil_iff (doc : List PyStr) :
    wordFreqs doc = [] ↔ doc = [] := by
  constructor
  · intro h
    by_contra hd
    exact foldl_bumpWord_ne_nil_of_ne doc [] hd h
  · intro h
    subst h
    rfl

/-- One corpus step of the nd fold empties exactly when both the incoming
dict and the document are empty. -/
theorem ndStep_eq_nil_iff (m : List (PyStr × Nat)) (doc : List PyStr) :
    ((wordFreqs doc).map Prod.fst).foldl bumpWord m = [] ↔
      m = [] ∧ doc = [] := by
  constructor
  · intro h
    by_cases hd : doc = []
    · subst hd
      exact ⟨h, rfl⟩
    · exfalso
      have hw : wordFreqs doc ≠ [] := fun hc => hd ((wordFreqs_eq_nil_iff doc).1 hc)
      have hm : (wordFreqs doc).map Prod.fst ≠ [] := by
        simpa [List.map_eq_nil_iff] using hw
      exact foldl_bumpWord_ne_nil_of_ne _ m hm h
  · rintro ⟨hm, hd⟩
    subst hm
    subst hd
    rfl

/-- The document-frequency map is empty exactly when no document of the
corpus holds a token. -/
theorem bm25nd_eq_nil_iff :
    ∀ corpus : List (List PyStr), bm25nd corpus = [] ↔ ∀ t ∈ corpus, t = [] := by
  have main : ∀ (corpus : List (List PyStr)) (m : List (PyStr × Nat)),
      corpus.foldl (fun m doc => ((wordFreqs doc).map Prod.fst).foldl bumpWord m) m
          = [] ↔ (m = [] ∧ ∀ t ∈ corpus, t = []) := by
    intro corpus
    induction corpus with
    | nil => intro m; simp
    | cons doc docs ih =>
      intro m
      rw [List.foldl_cons, ih, ndStep_eq_nil_iff]
      constructor
      · rintro ⟨⟨hm, hd⟩, hall⟩
        exact ⟨hm, fun t ht => by
          rcases List.mem_cons.1 ht with h | h
          · rw [h]; exact hd
          · exact hall t h⟩
      · rintro ⟨hm, hall⟩
        exact ⟨⟨hm, hall doc (by simp)⟩, fun t ht => hall t (by simp [ht])⟩
  intro corpus
  rw [bm25nd, main corpus []]
  simp

/-- C2 amended: constructing the reranker raises ZeroDivisionError exactly
when the corpus is empty (avgdl divides by the corpus size) or when no
document of the corpus tokenizes to any word (average_idf divides by the
size of the idf table); either way an empty-corpus reranker never reaches
rerank: the empty corpus is an error, not a no-op. -/
theorem bm25reranker_init_ok_iff (corpus : List PyStr) :
    (bm25reranker_init corpus).isOk = true ↔
      (corpus ≠ [] ∧ ∃ d ∈ corpus, pySplit (pyLower d) ≠ []) := by
  have hnd := bm25nd_eq_nil_iff (corpus.map (fun d => pySplit (pyLower d)))
  constructor
  · intro h
    by_cases h1 : (corpus.map (fun d => pySplit (pyLower d))).length = 0
    · exfalso
      rw [bm25reranker_init, bm25okapi_init, if_pos h1] at h
      simp [Except.isOk, Except.toBool] at h
    · by_cases h2 : bm25nd (corpus.map (fun d => pySplit (pyLower d))) = []
      · exfalso
        rw [bm25reranker_init, bm25okapi_init, if_neg h1, if_pos h2] at h
        simp [Except.isOk, Except.toBool] at h
      · constructor
        · intro hcon
          subst hcon
          exact h1 rfl
        · by_contra hno
          apply h2
          rw [hnd]
          intro t ht
          rcases List.mem_map.1 ht with ⟨d, hd, rfl⟩
          by_contra htne
          exact hno ⟨d, hd, htne⟩
  · intro hpre
    rcases hpre with ⟨hne, d, hd, hdt⟩
    have h1 : ¬ ((corpus.map (fun d => pySplit (pyLower d))).length = 0) := by
      simpa [List.length_eq_zero] using hne
    have h2 : ¬ (bm25nd (corpus.map (fun d => pySplit (pyLower d))) = []) := by
      rw [hnd]
      intro hall
      exact hdt (hall _ (List.mem_map.2 ⟨d, hd, rfl⟩))
    rw [bm25reranker_init, bm25okapi_init, if_neg h1, if_neg h2]
    rfl

/-- Witness for C2: a one-document corpus with tokens constructs, and a
nonempty corpus of token-less documents fails through the second division
(average_idf over an empty idf table). -/
theorem bm25reranker_init_ok_iff_witness :
    (bm25reranker_init ["cats chase mice".data]).isOk = true ∧
    (bm25reranker_init [[]]).isOk = false :=
  ⟨(bm25reranker_init_ok_iff ["cats chase mice".data]).2 ⟨by decide, by decide⟩,
   by decide⟩

/-- C2 counterexample: on the empty corpus the construction is not a no-op
but a ZeroDivisionError. -/
theorem bm25_empty_corpus_counterexample :
    (bm25reranker_init []).isOk = false ∧
    bm25reranker_init []
      = Except.error ("ZeroDivisionError: division by zero".data) := by
  constructor
  · rfl
  · rfl

/-!
UniversalPDFParser of app/utils/structured_pdf_parser.py.  PyMuPDF page,
block and line extraction, header/footer filtering and the OCR fallback
supply the span stream; the font-statistics pass supplies the body size and
the heading sizes in descending order.  Those are external inputs here: the
core is _split_text_into_chunks and the line fold of _parse_with_styles
with its section stack and chunk-index threading.
-/

/-- A text span with its rounded font size. -/
structure Span where
  text : PyStr
  size : Int

/-- A line of spans. -/
structure Line where
  spans : List Span

/-- A parsed chunk with its metadata. -/
structure PChunk where
  text : PyStr
  doc_title : PyStr
  section_path : PyStr
  path : PyStr
  chunk_index : Nat

/-- Whitespace-run collapsing of _normalize_text; the Bool is true inside a
run already replaced. -/
def collapseGo : Bool → PyStr → PyStr
  | _, [] => []
  | inRun, c :: cs =>
    if pyIsSpace c then
      (if inRun then collapseGo true cs else ' ' :: collapseGo true cs)
    else c :: collapseGo false cs

/-- _normalize_text: collapse whitespace runs to single spaces, then
strip. -/
def normalize_text (s : PyStr) : PyStr := pyStrip (collapseGo false s)

/-- One committed chunk of _split_text_into_chunks (the uuid chunk_id is
external randomness and carries no claim). -/
def mkPChunk (doc_title doc_path : PyStr) (section_path : List PyStr)
    (idx : Nat) (text : PyStr) : PChunk :=
  { text := normalize_text text, doc_title := doc_title,
    section_path := pyJoin (" > ".data) section_path, path := doc_path,
    chunk_index := idx }

/-- The sentence loop of _split_text_into_chunks: grow the running text
while it fits the cap, else commit it (when it strips nonempty) under the
running index and restart from the sentence. -/
def splitGo (cap : Nat) (doc_title doc_path : PyStr)
    (section_path : List PyStr) :
    List PyStr → List PChunk → PyStr → Nat → List PChunk
  | [], chunks, cur, idx =>
    if pyStrip cur ≠ [] then
      chunks ++ [mkPChunk doc_title doc_path section_path idx cur]
    else chunks
  | s :: rest, chunks, cur, idx =>
    if cur.length + s.length ≤ cap then
      splitGo cap doc_title doc_path section_path rest chunks (cur ++ ' ' :: s) idx
    else if pyStrip cur ≠ [] then
      splitGo cap doc_title doc_path section_path rest
        (chunks ++ [mkPChunk doc_title doc_path section_path idx cur]) s (idx + 1)
    else
      splitGo cap doc_title doc_path section_path rest chunks s idx

/-- _split_text_into_chunks: nothing for empty text, else the sentence loop
over the whitespace-run split after sentence punctuation. -/
def split_text_into_chunks (cap : Nat) (doc_title doc_path : PyStr)
    (section_path : List PyStr) (start_index : Nat) (text : PyStr) :
    List PChunk :=
  if text = [] then []
  else splitGo cap doc_title doc_path section_path
    (splitSentences pyIsSpace text) [] [] start_index

/-- The fold state of _parse_with_styles. -/
structure ParseState where
  chunks : List PChunk
  cur : PyStr
  section_path : List PyStr
  chunk_index : Nat

/-- The rounded sizes of the spans with nonblank text. -/
def lineSizes (l : Line) : List Int :=
  (l.spans.filter (fun s => decide (pyStrip s.text ≠ []))).map Span.size

/-- The concatenated text of a line. -/
def lineText (l : Line) : PyStr := pyJoin [] (l.spans.map Span.text)

/-- Maximum of a size list (only applied to nonempty lists). -/
def maxSize : List Int → Int
  | [] => 0
  | x :: xs => xs.foldl max x

/-- The section flush of _parse_with_styles: commit the accumulated section
text through _split_text_into_chunks and advance the index by the number of
chunks produced. -/
def parseFlush (cap : Nat) (doc_title doc_path : PyStr) (st : ParseState) :
    ParseState :=
  if pyStrip st.cur ≠ [] then
    { st with
      chunks := st.chunks ++ split_text_into_chunks cap doc_title doc_path
        st.section_path st.chunk_index st.cur,
      chunk_index := st.chunk_index
        + (split_text_into_chunks cap doc_title doc_path
            st.section_path st.chunk_index st.cur).length }
  else st

/-- One line step of _parse_with_styles: skip blank lines; on a heading,
flush, truncate the section stack to the heading rank and push the heading;
else accumulate the line text. -/
def parseLineStep (cap : Nat) (doc_title doc_path : PyStr)
    (heading_styles : List Int) (body_size : Int) (st : ParseState)
    (l : Line) : ParseState :=
  if lineSizes l = [] then st
  else if body_size < maxSize (lineSizes l) then
    let st2 := parseFlush cap doc_title doc_path st
    { chunks := st2.chunks, cur := [],
      section_path := st2.section_path.take
          (heading_styles.findIdx (fun s => decide (s = maxSize (lineSizes l))))
        ++ [normalize_text (lineText l)],
      chunk_index := st2.chunk_index }
  else { st with cur := st.cur ++ ' ' :: lineText l }

/-- _parse_with_styles: the line fold from the empty state, with the final
flush of the trailing section text. -/
def parse_with_styles (cap : Nat) (doc_title doc_path : PyStr)
    (heading_styles : List Int) (body_size : Int) (lines : List Line) :
    List PChunk :=
  let final := lines.foldl
    (parseLineStep cap doc_title doc_path heading_styles body_size)
    { chunks := [], cur := [], section_path := [], chunk_index := 0 }
  if pyStrip final.cur ≠ [] then
    final.chunks ++ split_text_into_chunks cap doc_title doc_path
      final.section_path final.chunk_index final.cur
  else final.chunks

/-- Unfolding of range' at a successor count. -/
theorem range1_cons (s n : Nat) :
    List.range' s (n + 1) = s :: List.range' (s + 1) n := rfl

/-- A contiguous range continues a prefix range. -/
theorem range_append_range' :
    ∀ (n k : Nat), List.range k ++ List.range' k n = List.range (k + n) := by
  intro n
  induction n with
  | zero => intro k; simp
  | succ n ih =>
    intro k
    rw [range1_cons,
      show (List.range k ++ k :: List.range' (k + 1) n)
        = (List.range k ++ [k]) ++ List.range' (k + 1) n by simp,
      ← List.range_succ, ih (k + 1)]
    congr 1
    omega

/-- The sentence loop appends chunks numbered contiguously from the running
index. -/
theorem splitGo_indices (cap : Nat) (dt dp : PyStr) (sp : List PyStr) :
    ∀ (sents : List PyStr) (chunks : List PChunk) (cur : PyStr) (idx : Nat),
      ∃ t : List PChunk,
        splitGo cap dt dp sp sents chunks cur idx = chunks ++ t ∧
        t.map PChunk.chunk_index = List.range' idx t.length := by
  intro sents
  induction sents with
  | nil =>
    intro chunks cur idx
    simp only [splitGo]
    by_cases hs : pyStrip cur ≠ []
    · rw [if_pos hs]
      exact ⟨[mkPChunk dt dp sp idx cur], rfl, by simp [mkPChunk, List.range']⟩
    · rw [if_neg hs]
      exact ⟨[], by simp, rfl⟩
  | cons s rest ih =>
    intro chunks cur idx
    simp only [splitGo]
    by_cases h1 : cur.length + s.length ≤ cap
    · rw [if_pos h1]
      exact ih chunks (cur ++ ' ' :: s) idx
    · rw [if_neg h1]
      by_cases h2 : pyStrip cur ≠ []
      · rw [if_pos h2]
        rcases ih (chunks ++ [mkPChunk dt dp sp idx cur]) s (idx + 1) with
          ⟨t, ht1, ht2⟩
        refine ⟨mkPChunk dt dp sp idx cur :: t, ?_, ?_⟩
        · rw [ht1]
          simp
        · simp only [List.map_cons, ht2, List.length_cons]
          rw [range1_cons]
          rfl
      · rw [if_neg h2]
        exact ih chunks s idx

/-- _split_text_into_chunks numbers its chunks contiguously from the start
index. -/
theorem split_text_into_chunks_indices (cap : Nat) (dt dp : PyStr)
    (sp : List PyStr) (start_index : Nat) (text : PyStr) :
    (split_text_into_chunks cap dt dp sp start_index text).map PChunk.chunk_index
      = List.range' start_index
          (split_text_into_chunks cap dt dp sp start_index text).length := by
  unfold split_text_into_chunks
  by_cases h : text = []
  · rw [if_pos h]
    rfl
  · rw [if_neg h]
    rcases splitGo_indices cap dt dp sp (splitSentences pyIsSpace text) [] []
      start_index with ⟨t, h1, h2⟩
    rw [h1]
    simpa using h2

/-- The section flush preserves the contiguous numbering invariant. -/
theorem parseFlush_inv (cap : Nat) (dt dp : PyStr) (st : ParseState)
    (h1 : st.chunks.map PChunk.chunk_index = List.range st.chunks.length)
    (h2 : st.chunk_index = st.chunks.length) :
    ((parseFlush cap dt dp st).chunks.map PChunk.chunk_index
        = List.range (parseFlush cap dt dp st).chunks.length) ∧
    (parseFlush cap dt dp st).chunk_index
        = (parseFlush cap dt dp st).chunks.length := by
  unfold parseFlush
  by_cases h : pyStrip st.cur ≠ []
  · rw [if_pos h]
    have h3 := split_text_into_chunks_indices cap dt dp st.section_path
      st.chunk_index st.cur
    constructor
    · simp only [List.map_append, List.length_append, h1, h3]
      rw [h2]
      exact range_append_range' _ _
    · simp only [List.length_append]
      omega
  · rw [if_neg h]
    exact ⟨h1, h2⟩

/-- Each line step preserves the contiguous numbering invariant. -/
theorem parseLineStep_inv (cap : Nat) (dt dp : PyStr)
    (heading_styles : List Int) (body_size : Int) (st : ParseState) (l : Line)
    (h1 : st.chunks.map PChunk.chunk_index = List.range st.chunks.length)
    (h2 : st.chunk_index = st.chunks.length) :
    ((parseLineStep cap dt dp heading_styles body_size st l).chunks.map
          PChunk.chunk_index
        = List.range
            (parseLineStep cap dt dp heading_styles body_size st l).chunks.length) ∧
    (parseLineStep cap dt dp heading_styles body_size st l).chunk_index
        = (parseLineStep cap dt dp heading_styles body_size st l).chunks.length := by
  unfold parseLineStep
  by_cases ha : lineSizes l = []
  · rw [if_pos ha]
    exact ⟨h1, h2⟩
  · rw [if_neg ha]
    by_cases hb : body_size < maxSize (lineSizes l)
    · rw [if_pos hb]
      have h3 := parseFlush_inv cap dt dp st h1 h2
      exact ⟨h3.1, h3.2⟩
    · rw [if_neg hb]
      exact ⟨h1, h2⟩

/-- The whole line fold preserves the contiguous numbering invariant. -/
theorem foldl_parseLineStep_inv (cap : Nat) (dt dp : PyStr)
    (heading_styles : List Int) (body_size : Int) (lines : List Line) :
    ∀ st : ParseState,
      st.chunks.map PChunk.chunk_index = List.range st.chunks.length →
      st.chunk_index = st.chunks.length →
      (((lines.foldl (parseLineStep cap dt dp heading_styles body_size)
            st).chunks.map PChunk.chunk_index
          = List.range (lines.foldl
              (parseLineStep cap dt dp heading_styles body_size) st).chunks.length) ∧
        (lines.foldl (parseLineStep cap dt dp heading_styles body_size)
            st).chunk_index
          = (lines.foldl (parseLineStep cap dt dp heading_styles body_size)
              st).chunks.length) := by
  induction lines with
  | nil => intro st h1 h2; exact ⟨h1, h2⟩
  | cons l ls ih =>
    intro st h1 h2
    rw [List.foldl_cons]
    have h3 := parseLineStep_inv cap dt dp heading_styles body_size st l h1 h2
    exact ih _ h3.1 h3.2

/-- C5: the chunk_index values of the parser output are exactly 0, 1, 2,
... in output order: unique, strictly increasing and contiguously numbered
across the whole document regardless of section boundaries. -/
theorem parse_with_styles_indices (cap : Nat) (dt dp : PyStr)
    (heading_styles : List Int) (body_size : Int) (lines : List Line) :
    (parse_with_styles cap dt dp heading_styles body_size lines).map
        PChunk.chunk_index
      = List.range
          (parse_with_styles cap dt dp heading_styles body_size lines).length ∧
    ((parse_with_styles cap dt dp heading_styles body_size lines).map
        PChunk.chunk_index).Pairwise (fun a b => a < b) := by
  have h0 := foldl_parseLineStep_inv cap dt dp heading_styles body_size lines
    { chunks := [], cur := [], section_path := [], chunk_index := 0 }
    (by simp) (by simp)
  have hmain : (parse_with_styles cap dt dp heading_styles body_size lines).map
      PChunk.chunk_index
      = List.range
          (parse_with_styles cap dt dp heading_styles body_size lines).length := by
    unfold parse_with_styles
    by_cases h : pyStrip (lines.foldl
        (parseLineStep cap dt dp heading_styles body_size)
        { chunks := [], cur := [], section_path := [], chunk_index := 0 }).cur ≠ []
    · rw [if_pos h]
      have h3 := split_text_into_chunks_indices cap dt dp
        (lines.foldl (parseLineStep cap dt dp heading_styles body_size)
          { chunks := [], cur := [], section_path := [], chunk_index := 0 }).section_path
        (lines.foldl (parseLineStep cap dt dp heading_styles body_size)
          { chunks := [], cur := [], section_path := [], chunk_index := 0 }).chunk_index
        (lines.foldl (parseLineStep cap dt dp heading_styles body_size)
          { chunks := [], cur := [], section_path := [], chunk_index := 0 }).cur
      simp only [List.map_append, List.length_append, h0.1, h3]
      rw [h0.2]
      exact range_append_range' _ _
    · rw [if_neg h]
      exact h0.1
  refine ⟨hmain, ?_⟩
  rw [hmain]
  exact List.pairwise_lt_range _

/-- Witness for C4 at a single-sentence text longer than the cap. -/
theorem semantic_chunk_text_cap_witness :
    ("Hi there.".data ∈ semantic_chunk_text embZero ("Hi there.".data) 3 1) ∧
    (("Hi there.".data : PyStr).length ≤ 3 ∨
      "Hi there.".data ∈ sentencesOf ("Hi there.".data)) :=
  ⟨by decide, semantic_chunk_text_cap embZero ("Hi there.".data) 3 1
    ("Hi there.".data) (by decide)⟩
